import Mathlib

/-!
Shallow embedding of the PayPal NVP response decoder of this repository
(`src/utils.py` and `src/paypal/api/__init__.py`, Python 2).

Strings are modelled as Lean `String` / `List Char`; a Python `OrderedDict`
is modelled as an association list with update-in-place assignment;
exceptions are modelled with `Except`.
-/

/-- Python `str.split(sep)` on a list of characters: split at every
occurrence of `sep`, keeping empty fields. -/
def pySplit (sep : Char) : List Char → List (List Char)
  | [] => [[]]
  | c :: cs =>
    match pySplit sep cs with
    | [] => [[]]
    | g :: gs => if c = sep then [] :: g :: gs else (c :: g) :: gs

/-- Python `str.split(sep, 1)` restricted to what `parse_qsl` needs:
`some (before, after)` for the first occurrence of `sep`, and `none` when
`sep` does not occur (the `len(nv) != 2` case). -/
def pySplit1 (sep : Char) : List Char → Option (List Char × List Char)
  | [] => none
  | c :: cs =>
    if c = sep then some ([], cs)
    else (pySplit1 sep cs).map (fun p => (c :: p.1, p.2))

/-- Value of a hexadecimal digit as accepted by the `_hextochr` table of
Python 2 `urllib.unquote` (both letter cases). -/
def hexVal? (c : Char) : Option Nat :=
  if '0' ≤ c ∧ c ≤ '9' then some (c.toNat - 48)
  else if 'a' ≤ c ∧ c ≤ 'f' then some (c.toNat - 87)
  else if 'A' ≤ c ∧ c ≤ 'F' then some (c.toNat - 55)
  else none

/-- Decoding of one `%`-separated group in `urllib.unquote`: when the group
starts with two hex digits they become one character, otherwise the `%` is
passed through unchanged (lenient decoding). -/
def unquoteGroup (g : List Char) : List Char :=
  match g with
  | c1 :: c2 :: rest =>
    match hexVal? c1, hexVal? c2 with
    | some a, some b => Char.ofNat (16 * a + b) :: rest
    | _, _ => '%' :: g
  | _ => '%' :: g

/-- Python 2 `urllib.unquote`: split on `%`, keep the first part, decode
each following group. -/
def pyUnquote (s : List Char) : List Char :=
  match pySplit '%' s with
  | [] => []
  | g :: gs => g ++ (gs.map unquoteGroup).flatten

/-- The `replace('+', ' ')` applied by `parse_qsl` before unquoting. -/
def plusToSpace (s : List Char) : List Char :=
  s.map (fun c => if c = '+' then ' ' else c)

/-- Python 2 `urlparse.parse_qsl` with default flags (`keep_blank_values=0`,
`strict_parsing=0`): split the query on `&` and then `;`, drop fields
without `=` and fields whose raw value is empty, then plus-decode and
percent-decode names and values. An empty field is dropped by the source's
`if not name_value: continue`, which coincides with the no-`=` case here. -/
def parse_qsl (qs : String) : List (String × String) :=
  (((pySplit '&' qs.data).map (pySplit ';')).flatten).filterMap (fun nv =>
    match pySplit1 '=' nv with
    | none => none
    | some p =>
      if p.2 = [] then none
      else some (String.mk (pyUnquote (plusToSpace p.1)),
                 String.mk (pyUnquote (plusToSpace p.2))))

/-- Ordered-dictionary assignment `d[k] = v` on an association list: an
existing key keeps its position and gets the new value, a new key is
appended at the end (Python `OrderedDict.__setitem__`). -/
def odSet (m : List (String × α)) (k : String) (v : α) : List (String × α) :=
  match m with
  | [] => [(k, v)]
  | kv :: rest => if kv.1 = k then (k, v) :: rest else kv :: odSet rest k v

/-- Dictionary lookup, `none` when the key is absent (a `KeyError`). -/
def odGet? (m : List (String × α)) (k : String) : Option α :=
  match m with
  | [] => none
  | kv :: rest => if kv.1 = k then some kv.2 else odGet? rest k

/-- Dictionary construction from a pair list: assign left to right, so a
later duplicate key overwrites the value at the first occurrence position. -/
def odFromList (l : List (String × α)) : List (String × α) :=
  l.foldl (fun m kv => odSet m kv.1 kv.2) []

/-- Source `utils.parse_nvp`: `OrderedDict(urlparse.parse_qsl(nvp))`. -/
def parse_nvp (nvp : String) : List (String × String) :=
  odFromList (parse_qsl nvp)

/-- Split a key into the part before the maximal trailing run of decimal
digits, and that run. -/
def splitTrailingDigits : List Char → List Char × List Char
  | [] => ([], [])
  | c :: cs =>
    let bd := splitTrailingDigits cs
    if bd.1 = [] ∧ c.isDigit then ([], c :: bd.2) else (c :: bd.1, bd.2)

/-- Match against the source regex
`nvp_array_re = ^(?P<key>L_.*\D)(?P<index>\d+)$` (src/utils.py last line):
`some (base, index)` when the key ends in at least one digit and the part
before the maximal trailing digit run starts with `L_` and has at least one
further character (which is then automatically a non-digit, as `\D`
demands). The index group is the trailing run read as a decimal number, as
Python `int` reads it. -/
def nvpArrayMatch (key : String) : Option (String × Nat) :=
  let bd := splitTrailingDigits key.data
  if bd.2 ≠ [] ∧ 3 ≤ bd.1.length ∧ bd.1.take 2 = ['L', '_'] then
    some (String.mk bd.1, bd.2.foldl (fun n c => 10 * n + (c.toNat - 48)) 0)
  else none

/-- Value stored in the collapsed response dictionary: either an original
string (scalar keys) or a list whose elements are strings or the `None`
padding placeholder. -/
inductive CValue where
  | pstr (s : String)
  | plist (l : List (Option String))
deriving DecidableEq, Repr

/-- Exceptions the collapsing loop can raise: `IndexError` from the explicit
order-mismatch `raise`, and `AttributeError` from `extend` / `append`
called on a string value. -/
inductive CollapseErr where
  | indexError
  | attributeError
deriving DecidableEq, Repr

/-- Python `len` of a collapsed value (`str` and `list` both support it). -/
def pyLen : CValue → Nat
  | .pstr s => s.length
  | .plist l => l.length

/-- One iteration of the loop in `PaypalNVPAPIResponse.collapsed_response`
(src/paypal/api/__init__.py lines 303-326). For an array key the value
stored under the base name is extended; the source first inserts an empty
list for an unseen base and then mutates it, which equals the single
`odSet` at the same first-occurrence position used here. A scalar key is
assigned directly. -/
def collapseStep (acc : List (String × CValue)) (kv : String × String) :
    Except CollapseErr (List (String × CValue)) :=
  match nvpArrayMatch kv.1 with
  | some bi =>
    let cv := (odGet? acc bi.1).getD (CValue.plist [])
    let n := pyLen cv
    if bi.2 < n then .error .indexError
    else
      match cv with
      | .pstr _ => .error .attributeError
      | .plist l =>
        let padded := if n < bi.2 then l ++ List.replicate (bi.2 - n) none else l
        .ok (odSet acc bi.1 (.plist (padded ++ [some kv.2])))
  | none => .ok (odSet acc kv.1 (.pstr kv.2))

/-- The whole collapsing loop of `collapsed_response` over a flat record. -/
def collapseList (fr : List (String × String)) :
    Except CollapseErr (List (String × CValue)) :=
  fr.foldlM collapseStep []

/-- Python `str.lstrip('L_')` as used on array key names in
`zipped_response`: remove ALL leading characters belonging to the set
`{'L', '_'}`, not merely one `L_` prefix. -/
def pyLstripLU (s : String) : String :=
  String.mk (s.data.dropWhile (fun c => c = 'L' ∨ c = '_'))

/-- Array-valued entries of a collapsed response in iteration order, with
the key passed through `lstrip('L_')`: the `transaction_keys` selection and
the parallel array-values selection of `zipped_response`. Iterating keys
and values of the same dictionary gives mutually consistent orders, which
is what a single traversal models. -/
def arrayEntries (c : List (String × CValue)) :
    List (String × List (Option String)) :=
  c.filterMap (fun kv =>
    match kv.2 with
    | .plist l => some (pyLstripLU kv.1, l)
    | .pstr _ => none)

/-- Fuel-driven core of `itertools.izip(*columns)`: emit the row of heads
while every column is nonempty, then stop. The fuel only bounds the
recursion depth; any fuel at least the shortest column length gives the
full izip result. -/
def izipGo (fuel : Nat) (ls : List (List α)) : List (List α) :=
  match fuel with
  | 0 => []
  | fuel' + 1 =>
    if ls.isEmpty ∨ ls.any List.isEmpty then []
    else ls.filterMap List.head? :: izipGo fuel' (ls.map List.tail)

/-- `itertools.izip(*columns)`: truncating transpose. With no columns at
all (`izip()`), the result is empty. The total column length sum is enough
fuel, since the number of emitted rows is the minimum column length. -/
def izipAll (ls : List (List α)) : List (List α) :=
  izipGo ((ls.map List.length).sum) ls

/-- Source `PaypalNVPAPIResponse.zipped_response`
(src/paypal/api/__init__.py lines 332-375): zip the array values of the
collapsed response and build one dictionary per row from the stripped keys
zipped against the row, modelling Python `dict(izip(keys, values))` by
left-to-right assignment of the pairs. -/
def zipped_response (c : List (String × CValue)) :
    List (List (String × Option String)) :=
  (izipAll ((arrayEntries c).map Prod.snd)).map
    (fun row => odFromList (((arrayEntries c).map Prod.fst).zip row))

/-- Errors during `PaypalNVPAPIResponse` construction: a raw `KeyError` on
a missing dictionary key, or the uniform `PaypalAPIError('Failed parsing
PayPal response')` raised by `validate` (the spec's `ResponseParseError`). -/
inductive NVPInitErr where
  | keyError (k : String)
  | paypalAPIError
deriving DecidableEq, Repr

/-- Dictionary access `self.response[k]` as performed by the accessor
properties `ack`, `correlation_id` and `timestamp`: a missing key raises
`KeyError(k)`. -/
def getKey (r : List (String × String)) (k : String) :
    Except NVPInitErr String :=
  match odGet? r k with
  | some v => .ok v
  | none => .error (.keyError k)

/-- Source `PaypalAPIResponse.validate` (lines 189-208) as called by
`PaypalNVPAPIResponse.__init__` with `['ack', 'correlation_id',
'timestamp']`: an empty response returns immediately; otherwise each
accessor is evaluated and any `KeyError` is converted to the uniform
`PaypalAPIError`. -/
def validateNVP (r : List (String × String)) : Except NVPInitErr Unit :=
  if r = [] then .ok ()
  else
    match getKey r "ACK", getKey r "CORRELATIONID", getKey r "TIMESTAMP" with
    | .ok _, .ok _, .ok _ => .ok ()
    | _, _, _ => .error .paypalAPIError

/-- Construction of `PaypalNVPAPIResponse` on a non-`None` HTTP response
with the given body (lines 155-168 and 261-264): the base `__init__`
parses the body, then evaluates `self.success` (reads `ACK`) and logs
`self.correlation_id` and `self.timestamp` (reads both keys), each raising
a raw `KeyError` if absent; only afterwards does the subclass `__init__`
run `validate`. -/
def initNVPResponse (content : String) :
    Except NVPInitErr (List (String × String)) :=
  let r := parse_nvp content
  do
    _ ← getKey r "ACK"
    _ ← getKey r "CORRELATIONID"
    _ ← getKey r "TIMESTAMP"
    _ ← validateNVP r
    pure r

/-- Test whether a construction outcome is the uniform `PaypalAPIError`. -/
def isPaypalAPIError (e : Except NVPInitErr (List (String × String))) : Bool :=
  match e with
  | .error .paypalAPIError => true
  | _ => false

/-- State of a `PaypalNVPAPIResponse` instance relevant to the
`collapsed_response` cache: the parsed flat record and the
`_collapsed_response` field (initially `None`). -/
structure RespState where
  response : List (String × String)
  collapsedCache : Option (List (String × CValue))
deriving DecidableEq, Repr

/-- One access to the `collapsed_response` property (lines 301-330): on a
cache miss the loop runs and, on success, the result is stored in
`_collapsed_response`; a cache hit returns the stored value unchanged. -/
def collapsedAccess (s : RespState) :
    Except CollapseErr (List (String × CValue)) × RespState :=
  match s.collapsedCache with
  | some c => (.ok c, s)
  | none =>
    match collapseList s.response with
    | .ok c => (.ok c, { s with collapsedCache := some c })
    | .error e => (.error e, s)

/-- Decidable equality for `Except`, used to evaluate the embedding on
concrete inputs. -/
instance {ε α : Type} [DecidableEq ε] [DecidableEq α] :
    DecidableEq (Except ε α) := fun a b =>
  match a, b with
  | .error e, .error e' => decidable_of_iff (e = e') (by simp)
  | .ok v, .ok v' => decidable_of_iff (v = v') (by simp)
  | .error _, .ok _ => isFalse (by simp)
  | .ok _, .error _ => isFalse (by simp)

/-- Collapsed-dictionary key of a flat key: the regex base name for array
keys, the key itself for scalar keys. -/
def collapsedKey (k : String) : String :=
  match nvpArrayMatch k with
  | some bi => bi.1
  | none => k

/-- First-occurrence deduplication of a key list: the iteration order an
insertion-ordered dictionary gives its keys. -/
def firstOccur : List String → List String
  | [] => []
  | k :: ks => k :: (firstOccur ks).filter (fun x => x ≠ k)

/-- Effect of one ordered-dictionary assignment on the key iteration order:
an existing key stays where it is, a new key goes to the end. -/
def odKeysIns (ks : List String) (k : String) : List String :=
  if k ∈ ks then ks else ks ++ [k]

/-- No scalar key of the flat record is also the base name of one of its
array keys (such a clash makes the loop call `append`/`extend` on a
string). -/
def noScalarBaseClash (fr : List (String × String)) : Prop :=
  ∀ kv ∈ fr, nvpArrayMatch kv.1 = none →
    ∀ kv' ∈ fr, (nvpArrayMatch kv'.1).map Prod.fst ≠ some kv.1

/-! Helper lemmas about the dictionary model. -/

theorem exceptBind_ok (a : α) (f : α → Except ε β) :
    (Except.ok a >>= f : Except ε β) = f a := rfl

theorem exceptBind_error (e : ε) (f : α → Except ε β) :
    ((Except.error e : Except ε α) >>= f) = Except.error e := rfl

theorem odGet?_odSet (m : List (String × α)) (k k' : String) (v : α) :
    odGet? (odSet m k v) k' = if k' = k then some v else odGet? m k' := by
  induction m with
  | nil =>
    by_cases h : k' = k
    · subst h; simp [odSet, odGet?]
    · have hk : ¬k = k' := fun hh => h hh.symm
      simp [odSet, odGet?, h, hk]
  | cons kv m ih =>
    by_cases h1 : kv.1 = k
    · by_cases h2 : k' = k
      · subst h2; simp [odSet, odGet?, h1]
      · have hk : ¬k = k' := fun hh => h2 hh.symm
        have hkv : ¬kv.1 = k' := fun hh => hk (h1.symm.trans hh)
        simp [odSet, odGet?, h1, h2, hk, hkv]
    · by_cases h2 : k' = k
      · subst h2; simp [odSet, odGet?, h1, ih]
      · simp [odSet, odGet?, h1, h2, ih]

theorem mem_odSet (m : List (String × α)) (k : String) (v : α) (kv' : String × α)
    (h : kv' ∈ odSet m k v) : kv' = (k, v) ∨ kv' ∈ m := by
  induction m with
  | nil => simpa [odSet] using h
  | cons kv m ih =>
    simp only [odSet] at h
    by_cases h1 : kv.1 = k
    · rw [if_pos h1] at h
      exact (List.mem_cons.mp h).imp id (List.mem_cons_of_mem kv)
    · rw [if_neg h1] at h
      rcases List.mem_cons.mp h with h' | h'
      · exact Or.inr (h' ▸ List.mem_cons_self kv m)
      · rcases ih h' with h'' | h''
        · exact Or.inl h''
        · exact Or.inr (List.mem_cons_of_mem kv h'')

theorem odGet?_eq_none (m : List (String × α)) (k : String) :
    odGet? m k = none ↔ k ∉ m.map Prod.fst := by
  induction m with
  | nil => simp [odGet?]
  | cons kv m ih =>
    by_cases h : kv.1 = k
    · simp [odGet?, h]
    · have hk : ¬k = kv.1 := fun hh => h hh.symm
      simp only [odGet?, if_neg h, List.map_cons, List.mem_cons, ih]
      simp [hk, not_or]

theorem odSet_absent (m : List (String × α)) (k : String) (v : α)
    (h : k ∉ m.map Prod.fst) : odSet m k v = m ++ [(k, v)] := by
  induction m with
  | nil => simp [odSet]
  | cons kv m ih =>
    simp only [List.map_cons, List.mem_cons] at h
    push_neg at h
    have h1 : ¬kv.1 = k := fun hh => h.1 hh.symm
    simp [odSet, h1, ih h.2]

theorem map_fst_odSet (m : List (String × α)) (k : String) (v : α) :
    (odSet m k v).map Prod.fst = odKeysIns (m.map Prod.fst) k := by
  induction m with
  | nil => simp [odSet, odKeysIns]
  | cons kv m ih =>
    by_cases h : kv.1 = k
    · simp [odSet, odKeysIns, h]
    · have hk : k ≠ kv.1 := fun hh => h hh.symm
      by_cases h2 : k ∈ m.map Prod.fst
      · simp [odSet, odKeysIns, h, h2, hk, ih]
      · simp [odSet, odKeysIns, h, h2, hk, ih]

theorem mem_foldl_odSet (l : List (String × α)) :
    ∀ (m : List (String × α)) (kv : String × α),
      kv ∈ l.foldl (fun m p => odSet m p.1 p.2) m →
      kv ∈ m ∨ kv.1 ∈ l.map Prod.fst := by
  induction l with
  | nil => intro m kv h; exact Or.inl h
  | cons p l ih =>
    intro m kv h
    rcases ih (odSet m p.1 p.2) kv h with h' | h'
    · rcases mem_odSet m p.1 p.2 kv h' with h'' | h''
      · exact Or.inr (by simp [h''])
      · exact Or.inl h''
    · exact Or.inr (List.mem_cons_of_mem _ h')

theorem mem_odFromList_key (l : List (String × α)) (kv : String × α)
    (h : kv ∈ odFromList l) : kv.1 ∈ l.map Prod.fst := by
  rcases mem_foldl_odSet l [] kv h with h' | h'
  · simp at h'
  · exact h'

theorem odFromList_values (p : α → Prop) (l : List (String × α))
    (hl : ∀ kv ∈ l, p kv.2) : ∀ kv ∈ odFromList l, p kv.2 := by
  have main : ∀ (l' : List (String × α)) (m : List (String × α)),
      (∀ kv ∈ m, p kv.2) → (∀ kv ∈ l', p kv.2) →
      ∀ kv ∈ l'.foldl (fun m q => odSet m q.1 q.2) m, p kv.2 := by
    intro l'
    induction l' with
    | nil => intro m hm _ kv h; exact hm kv h
    | cons q l' ih =>
      intro m hm hl' kv h
      refine ih (odSet m q.1 q.2) ?_ (fun kv' h' => hl' kv' (List.mem_cons_of_mem _ h')) kv h
      intro kv' h'
      rcases mem_odSet m q.1 q.2 kv' h' with h'' | h''
      · subst h''; exact hl' q (List.mem_cons_self q l')
      · exact hm kv' h''
  exact main l [] (by simp) hl

/-- C3: when an array key with base name `F` and index `i` arrives while the
list accumulated for `F` has length `n < i`, the collapser pads the list
with exactly `i - n` null placeholders before appending, so the value lands
at absolute position `i`; in particular `L_FOO0=a&L_FOO2=c` collapses to
`{L_FOO: ["a", null, "c"]}`. -/
theorem collapse_gap_padding (acc : List (String × CValue)) (k v : String)
    (bi : String × Nat) (l : List (Option String))
    (h1 : nvpArrayMatch k = some bi) (h2 : odGet? acc bi.1 = some (.plist l))
    (h3 : l.length < bi.2) :
    collapseStep acc (k, v) =
      .ok (odSet acc bi.1
        (.plist (l ++ List.replicate (bi.2 - l.length) none ++ [some v]))) ∧
    (l ++ List.replicate (bi.2 - l.length) none ++ [some v]).length = bi.2 + 1 ∧
    (l ++ List.replicate (bi.2 - l.length) none ++ [some v])[bi.2]? =
      some (some v) ∧
    collapseList (parse_nvp "L_FOO0=a&L_FOO2=c") =
      .ok [("L_FOO", .plist [some "a", none, some "c"])] := by
  refine ⟨?_, ?_, ?_, by decide⟩
  · simp [collapseStep, h1, h2, pyLen, Nat.lt_asymm h3, h3]
  · simp only [List.length_append, List.length_replicate, List.length_cons,
      List.length_nil]
    omega
  · have hlen :
        (l ++ List.replicate (bi.2 - l.length) (none : Option String)).length
          = bi.2 := by
      simp only [List.length_append, List.length_replicate]
      omega
    nth_rewrite 2 [← hlen]
    exact List.getElem?_concat_length _ _

theorem collapse_gap_padding_witness :
    collapseStep [("L_FOO", CValue.plist [some "a"])] ("L_FOO2", "c") =
      Except.ok [("L_FOO", CValue.plist [some "a", none, some "c"])] := by
  have h := (collapse_gap_padding [("L_FOO", CValue.plist [some "a"])]
    "L_FOO2" "c" ("L_FOO", 2) [some "a"] (by decide) (by decide) (by decide)).1
  rw [h]
  decide

/-- C8: collapsing the same flat record twice yields structurally equal
results, and the cached `_collapsed_response` is reused unchanged: the
first and the second access to the `collapsed_response` property both
return the same successfully collapsed dictionary. -/
theorem collapse_idempotent (fr : List (String × String))
    (c : List (String × CValue)) (h : collapseList fr = .ok c) :
    (collapsedAccess ⟨fr, none⟩).1 = .ok c ∧
    (collapsedAccess (collapsedAccess ⟨fr, none⟩).2).1 = .ok c := by
  simp [collapsedAccess, h]

theorem collapse_idempotent_witness :
    (collapsedAccess ⟨parse_nvp "ACK=Success", none⟩).1 =
      .ok [("ACK", CValue.pstr "Success")] ∧
    (collapsedAccess (collapsedAccess ⟨parse_nvp "ACK=Success", none⟩).2).1 =
      .ok [("ACK", CValue.pstr "Success")] :=
  collapse_idempotent _ _ (by decide)

theorem collapseStep_attr (acc : List (String × CValue)) (kv : String × String)
    (h : collapseStep acc kv = .error .attributeError) :
    ∃ bi : String × Nat, nvpArrayMatch kv.1 = some bi ∧
      ∃ s, odGet? acc bi.1 = some (CValue.pstr s) := by
  cases hm : nvpArrayMatch kv.1 with
  | none => simp [collapseStep, hm] at h
  | some bi =>
    cases hg : odGet? acc bi.1 with
    | none => simp [collapseStep, hm, hg, pyLen] at h
    | some cv =>
      cases cv with
      | pstr s => exact ⟨bi, rfl, s, hg⟩
      | plist l =>
        by_cases hb : bi.2 < l.length <;>
          simp [collapseStep, hm, hg, pyLen, hb] at h

theorem collapseStep_ok_cases (acc acc' : List (String × CValue))
    (kv : String × String) (h : collapseStep acc kv = .ok acc') :
    (nvpArrayMatch kv.1 = none ∧ acc' = odSet acc kv.1 (.pstr kv.2)) ∨
    (∃ bi : String × Nat, nvpArrayMatch kv.1 = some bi ∧
      (∀ s, odGet? acc bi.1 ≠ some (CValue.pstr s)) ∧
      ∃ l', acc' = odSet acc bi.1 (.plist l')) := by
  cases hm : nvpArrayMatch kv.1 with
  | none =>
    simp only [collapseStep, hm, Except.ok.injEq] at h
    subst h
    exact Or.inl ⟨rfl, rfl⟩
  | some bi =>
    cases hg : odGet? acc bi.1 with
    | none =>
      simp [collapseStep, hm, hg, pyLen] at h
      subst h
      refine Or.inr ⟨bi, rfl, ?_, ⟨_, rfl⟩⟩
      intro s
      simp [hg]
    | some cv =>
      cases cv with
      | pstr s' =>
        by_cases hb : bi.2 < s'.length <;>
          simp [collapseStep, hm, hg, pyLen, hb] at h
      | plist l =>
        by_cases hb : bi.2 < l.length
        · simp [collapseStep, hm, hg, pyLen, hb] at h
        · simp [collapseStep, hm, hg, pyLen, hb] at h
          subst h
          refine Or.inr ⟨bi, rfl, ?_, ⟨_, rfl⟩⟩
          intro s
          simp [hg]

theorem collapseStep_ok_new_pstr (acc acc' : List (String × CValue))
    (kv : String × String) (h : collapseStep acc kv = .ok acc')
    (k s : String) (h2 : odGet? acc' k = some (CValue.pstr s)) :
    odGet? acc k = some (CValue.pstr s) ∨
      (kv.1 = k ∧ nvpArrayMatch k = none ∧ s = kv.2) := by
  rcases collapseStep_ok_cases acc acc' kv h with ⟨hm, ha⟩ | ⟨bi, hm, hnp, l', ha⟩
  · subst ha
    rw [odGet?_odSet] at h2
    by_cases hk : k = kv.1
    · rw [if_pos hk] at h2
      simp only [Option.some.injEq, CValue.pstr.injEq] at h2
      exact Or.inr ⟨hk.symm, by rw [hk]; exact hm, h2.symm⟩
    · rw [if_neg hk] at h2
      exact Or.inl h2
  · subst ha
    rw [odGet?_odSet] at h2
    by_cases hk : k = bi.1
    · rw [if_pos hk] at h2
      simp at h2
    · rw [if_neg hk] at h2
      exact Or.inl h2

theorem collapseStep_ok_pstr_preserved (acc acc' : List (String × CValue))
    (kv : String × String) (k s : String)
    (h : collapseStep acc kv = .ok acc')
    (hget : odGet? acc k = some (CValue.pstr s)) (hk : kv.1 ≠ k) :
    odGet? acc' k = some (CValue.pstr s) := by
  rcases collapseStep_ok_cases acc acc' kv h with ⟨hm, ha⟩ | ⟨bi, hm, hnp, l', ha⟩
  · subst ha
    rw [odGet?_odSet, if_neg (fun hh => hk hh.symm)]
    exact hget
  · by_cases hbk : bi.1 = k
    · exact absurd (hbk.symm ▸ hget) (hnp s)
    · subst ha
      rw [odGet?_odSet, if_neg (fun hh => hbk hh.symm)]
      exact hget

theorem collapse_fold_err (fr₀ : List (String × String))
    (hclash : noScalarBaseClash fr₀) :
    ∀ (fr : List (String × String)) (acc : List (String × CValue)),
      (∀ kv ∈ fr, kv ∈ fr₀) →
      (∀ k s, odGet? acc k = some (CValue.pstr s) →
        ∃ kv ∈ fr₀, kv.1 = k ∧ nvpArrayMatch k = none) →
      ∀ e, List.foldlM collapseStep acc fr = .error e → e = .indexError := by
  intro fr
  induction fr with
  | nil =>
    intro acc _ _ e h
    simp [List.foldlM, pure, Except.pure] at h
  | cons kv fr ih =>
    intro acc hsub hinv e h
    rw [List.foldlM_cons] at h
    cases hstep : collapseStep acc kv with
    | error e' =>
      rw [hstep, exceptBind_error] at h
      injection h with h
      subst h
      cases e' with
      | indexError => rfl
      | attributeError =>
        rcases collapseStep_attr acc kv hstep with ⟨bi, hm, s, hget⟩
        rcases hinv bi.1 s hget with ⟨kv₀, hmem₀, hk₀, hsc₀⟩
        have := hclash kv₀ hmem₀ (hk₀.symm ▸ hsc₀) kv
          (hsub kv (List.mem_cons_self kv fr))
        rw [hm] at this
        simp [hk₀] at this
    | ok acc' =>
      rw [hstep, exceptBind_ok] at h
      refine ih acc' (fun kv' h' => hsub kv' (List.mem_cons_of_mem _ h')) ?_ e h
      intro k s hk
      rcases collapseStep_ok_new_pstr acc acc' kv hstep k s hk with h' | ⟨h1, h2, _⟩
      · exact hinv k s h'
      · exact ⟨kv, hsub kv (List.mem_cons_self kv fr), h1, h2⟩

/-- C2 (amended): when an array key with base name `F` and index `i`
arrives while the value accumulated under `F` is a list of length `n` with
`i < n`, the collapser fails with the order-mismatch `IndexError` (the
spec's `OrderViolation`); for flat records in which no scalar key equals an
array base name, this is the sole failure mode — otherwise the collapser
can instead fail with an `AttributeError` by calling `append`/`extend` on
a string — and the input `L_FOO1=a&L_FOO0=b` raises the order violation. -/
theorem collapse_order_violation (fr : List (String × String))
    (hclash : noScalarBaseClash fr) :
    (∀ e, collapseList fr = .error e → e = .indexError) ∧
    (∀ (acc : List (String × CValue)) (k v : String) (bi : String × Nat)
        (l : List (Option String)), nvpArrayMatch k = some bi →
        odGet? acc bi.1 = some (.plist l) → bi.2 < l.length →
        collapseStep acc (k, v) = .error .indexError) ∧
    collapseList (parse_nvp "L_FOO1=a&L_FOO0=b") = .error .indexError := by
  refine ⟨?_, ?_, by decide⟩
  · intro e h
    exact collapse_fold_err fr hclash fr [] (fun kv h' => h')
      (by intro k s hk; simp [odGet?] at hk) e h
  · intro acc k v bi l h1 h2 h3
    simp [collapseStep, h1, h2, pyLen, h3]

theorem collapse_order_violation_witness :
    collapseList (parse_nvp "L_FOO1=a&L_FOO0=b") =
      .error CollapseErr.indexError := by
  have h := collapse_order_violation (parse_nvp "L_FOO1=a&L_FOO0=b")
    (by unfold noScalarBaseClash; decide)
  exact h.2.2

/-- C2 counterexample: on `L_FOO=abc&L_FOO3=z` — a scalar key equal to an
array base name — the collapser fails with `AttributeError` (`append` /
`extend` on a string), not with the order-mismatch `IndexError`, so the
order violation is not the sole failure mode of the collapser. -/
theorem collapse_not_sole_failure :
    collapseList (parse_nvp "L_FOO=abc&L_FOO3=z") =
      .error CollapseErr.attributeError ∧
    (CollapseErr.attributeError == CollapseErr.indexError) = false :=
  ⟨by decide, by decide⟩

theorem collapse_fold_pstr_preserved (fr : List (String × String)) :
    ∀ (acc c : List (String × CValue)) (k s : String),
      List.foldlM collapseStep acc fr = .ok c →
      odGet? acc k = some (CValue.pstr s) →
      (∀ kv ∈ fr, kv.1 ≠ k) →
      odGet? c k = some (CValue.pstr s) := by
  induction fr with
  | nil =>
    intro acc c k s hok hget _
    simp [List.foldlM, pure, Except.pure] at hok
    subst hok
    exact hget
  | cons x fr ih =>
    intro acc c k s hok hget hkeys
    rw [List.foldlM_cons] at hok
    cases hstep : collapseStep acc x with
    | error e => rw [hstep, exceptBind_error] at hok; cases hok
    | ok acc' =>
      rw [hstep, exceptBind_ok] at hok
      refine ih acc' c k s hok ?_ (fun kv h' => hkeys kv (List.mem_cons_of_mem _ h'))
      exact collapseStep_ok_pstr_preserved acc acc' x k s hstep hget
        (hkeys x (List.mem_cons_self x fr))

theorem collapse_fold_scalar (fr : List (String × String)) :
    ∀ (acc c : List (String × CValue)),
      (fr.map Prod.fst).Nodup →
      List.foldlM collapseStep acc fr = .ok c →
      ∀ kv ∈ fr, nvpArrayMatch kv.1 = none →
        odGet? c kv.1 = some (CValue.pstr kv.2) := by
  induction fr with
  | nil => intro acc c _ _ kv h; simp at h
  | cons x fr ih =>
    intro acc c hnd hok kv hmem hsc
    rw [List.map_cons, List.nodup_cons] at hnd
    rw [List.foldlM_cons] at hok
    cases hstep : collapseStep acc x with
    | error e => rw [hstep, exceptBind_error] at hok; cases hok
    | ok acc' =>
      rw [hstep, exceptBind_ok] at hok
      rcases List.mem_cons.mp hmem with heq | hmem'
      · subst heq
        simp only [collapseStep, hsc, Except.ok.injEq] at hstep
        subst hstep
        refine collapse_fold_pstr_preserved fr _ c kv.1 kv.2 hok ?_ ?_
        · rw [odGet?_odSet, if_pos rfl]
        · intro kv' h' heq'
          exact hnd.1 (heq' ▸ List.mem_map_of_mem Prod.fst h')
      · exact ih acc' c hnd.2 hok kv hmem' hsc

/-- C7: every scalar key of a flat record — one that does not match the
array-key regex — appears in the successfully collapsed record mapped to
the same string value, unchanged. -/
theorem collapse_scalar_roundtrip (fr : List (String × String))
    (c : List (String × CValue)) (hnd : (fr.map Prod.fst).Nodup)
    (hok : collapseList fr = .ok c) :
    ∀ kv ∈ fr, nvpArrayMatch kv.1 = none →
      odGet? c kv.1 = some (CValue.pstr kv.2) :=
  collapse_fold_scalar fr [] c hnd hok

theorem collapse_scalar_roundtrip_witness :
    odGet? [("ACK", CValue.pstr "Success"), ("L_FOO", CValue.plist [some "a"])]
      "ACK" = some (CValue.pstr "Success") :=
  collapse_scalar_roundtrip (parse_nvp "ACK=Success&L_FOO0=a")
    [("ACK", CValue.pstr "Success"), ("L_FOO", CValue.plist [some "a"])]
    (by decide) (by decide) ("ACK", "Success") (by decide) (by decide)

theorem collapse_fold_scalars_only (fr : List (String × String)) :
    ∀ (acc : List (String × CValue)),
      (∀ kv ∈ fr, nvpArrayMatch kv.1 = none) →
      (∀ kv ∈ fr, odGet? acc kv.1 = none) →
      (fr.map Prod.fst).Nodup →
      List.foldlM collapseStep acc fr =
        .ok (acc ++ fr.map (fun kv => (kv.1, CValue.pstr kv.2))) := by
  induction fr with
  | nil =>
    intro acc _ _ _
    simp [List.foldlM, pure, Except.pure]
  | cons x fr ih =>
    intro acc hsc habs hnd
    rw [List.map_cons, List.nodup_cons] at hnd
    rw [List.foldlM_cons]
    have hstep : collapseStep acc x = .ok (odSet acc x.1 (CValue.pstr x.2)) := by
      simp [collapseStep, hsc x (List.mem_cons_self x fr)]
    rw [hstep, exceptBind_ok]
    rw [ih (odSet acc x.1 (CValue.pstr x.2))
      (fun kv h => hsc kv (List.mem_cons_of_mem _ h)) ?_ hnd.2]
    · rw [odSet_absent acc x.1 _
        ((odGet?_eq_none acc x.1).mp (habs x (List.mem_cons_self x fr)))]
      simp
    · intro kv h
      rw [odGet?_odSet, if_neg, habs kv (List.mem_cons_of_mem _ h)]
      intro heq
      exact hnd.1 (heq ▸ List.mem_map_of_mem Prod.fst h)

theorem arrayEntries_all_pstr (fr : List (String × String)) :
    arrayEntries (fr.map (fun kv => (kv.1, CValue.pstr kv.2))) = [] := by
  induction fr with
  | nil => simp [arrayEntries]
  | cons x fr ih => simp [arrayEntries]

/-- C9: a flat record containing no keys matching the array-key regex
collapses to itself — the same keys mapped to the same string values — and
its zipped sequence is empty (zero records, no error); in particular
`ACK=Success&CORRELATIONID=xyz` yields an empty zipped sequence and a
collapsed record equal to the flat one. -/
theorem collapse_no_arrays (fr : List (String × String))
    (hsc : ∀ kv ∈ fr, nvpArrayMatch kv.1 = none)
    (hnd : (fr.map Prod.fst).Nodup) :
    collapseList fr = .ok (fr.map (fun kv => (kv.1, CValue.pstr kv.2))) ∧
    zipped_response (fr.map (fun kv => (kv.1, CValue.pstr kv.2))) = [] ∧
    collapseList (parse_nvp "ACK=Success&CORRELATIONID=xyz") =
      .ok [("ACK", CValue.pstr "Success"),
           ("CORRELATIONID", CValue.pstr "xyz")] ∧
    zipped_response [("ACK", CValue.pstr "Success"),
           ("CORRELATIONID", CValue.pstr "xyz")] = [] := by
  refine ⟨?_, ?_, by decide, by decide⟩
  · have h := collapse_fold_scalars_only fr []
      hsc (by intro kv h; simp [odGet?]) hnd
    simpa [collapseList] using h
  · simp [zipped_response, arrayEntries_all_pstr, izipAll, izipGo]

theorem collapse_no_arrays_witness :
    collapseList (parse_nvp "ACK=Success&CORRELATIONID=xyz") =
      .ok ((parse_nvp "ACK=Success&CORRELATIONID=xyz").map
        (fun kv => (kv.1, CValue.pstr kv.2))) :=
  (collapse_no_arrays (parse_nvp "ACK=Success&CORRELATIONID=xyz")
    (by decide) (by decide)).1

theorem length_le_sum_lengths (ls : List (List α)) (l : List α) (h : l ∈ ls) :
    l.length ≤ (ls.map List.length).sum := by
  induction ls with
  | nil => cases h
  | cons x ls ih =>
    rcases List.mem_cons.mp h with heq | hmem
    · subst heq
      simp only [List.map_cons, List.sum_cons]
      exact Nat.le_add_right _ _
    · simp only [List.map_cons, List.sum_cons]
      exact le_trans (ih hmem) (Nat.le_add_left _ _)

theorem izipGo_spec (fuel : Nat) :
    ∀ (ls : List (List α)), ls ≠ [] → (∀ l ∈ ls, l.length ≤ fuel) →
      (∀ l ∈ ls, (izipGo fuel ls).length ≤ l.length) ∧
      (∃ l ∈ ls, (izipGo fuel ls).length = l.length) := by
  induction fuel with
  | zero =>
    intro ls hne hle
    constructor
    · intro l _
      simp [izipGo]
    · rcases ls with _ | ⟨x, ls⟩
      · exact absurd rfl hne
      · refine ⟨x, List.mem_cons_self x ls, ?_⟩
        have hx := Nat.le_zero.mp (hle x (List.mem_cons_self x ls))
        simp [izipGo, hx]
  | succ fuel ih =>
    intro ls hne hle
    by_cases hany : ls.any List.isEmpty
    · have hres : izipGo (fuel + 1) ls = ([] : List (List α)) := by
        simp [izipGo, hany]
      rcases List.any_eq_true.mp hany with ⟨l, hl, hemp⟩
      refine ⟨fun l' _ => by simp [hres], ⟨l, hl, ?_⟩⟩
      rw [hres, List.isEmpty_iff.mp hemp]
      rfl
    · have hallne : ∀ l ∈ ls, l ≠ [] := by
        intro l hl hemp
        exact hany (List.any_eq_true.mpr ⟨l, hl, by simp [hemp]⟩)
      have hisem : ls.isEmpty = false := by
        rcases ls with _ | ⟨x, ls⟩
        · exact absurd rfl hne
        · rfl
      have hres : izipGo (fuel + 1) ls =
          ls.filterMap List.head? :: izipGo fuel (ls.map List.tail) := by
        rw [izipGo]
        rw [if_neg]
        simp [hisem, hany]
      have hne' : ls.map List.tail ≠ [] := by
        intro hh
        exact hne (List.map_eq_nil_iff.mp hh)
      have hle' : ∀ t ∈ ls.map List.tail, t.length ≤ fuel := by
        intro t ht
        rcases List.mem_map.mp ht with ⟨l, hl, rfl⟩
        have h1 := hle l hl
        have h2 : 0 < l.length := List.length_pos.mpr (hallne l hl)
        rw [List.length_tail]
        omega
      rcases ih (ls.map List.tail) hne' hle' with ⟨h1, h2⟩
      constructor
      · intro l hl
        have ht := h1 l.tail (List.mem_map_of_mem List.tail hl)
        have hp : 0 < l.length := List.length_pos.mpr (hallne l hl)
        rw [hres, List.length_cons]
        rw [List.length_tail] at ht
        omega
      · rcases h2 with ⟨t, ht, heq⟩
        rcases List.mem_map.mp ht with ⟨l, hl, rfl⟩
        refine ⟨l, hl, ?_⟩
        have hp : 0 < l.length := List.length_pos.mpr (hallne l hl)
        rw [hres, List.length_cons]
        rw [List.length_tail] at heq
        omega

/-- C4: for every collapsed record with at least one array-valued field,
the zipped sequence length equals the minimum length among the array
fields — it never exceeds any array field's length and coincides with the
length of some array field — so producing it never reads a position beyond
any array's length. -/
theorem zipped_length_min (c : List (String × CValue))
    (h : arrayEntries c ≠ []) :
    (∀ kl ∈ arrayEntries c, (zipped_response c).length ≤ kl.2.length) ∧
    (∃ kl ∈ arrayEntries c, (zipped_response c).length = kl.2.length) := by
  have hcols : (arrayEntries c).map Prod.snd ≠ [] := by
    intro hh
    exact h (List.map_eq_nil_iff.mp hh)
  have hle : ∀ l ∈ (arrayEntries c).map Prod.snd,
      l.length ≤ ((((arrayEntries c).map Prod.snd)).map List.length).sum :=
    fun l hl => length_le_sum_lengths _ l hl
  rcases izipGo_spec ((((arrayEntries c).map Prod.snd)).map List.length).sum
    ((arrayEntries c).map Prod.snd) hcols hle with ⟨h1, h2⟩
  have hlen : (zipped_response c).length =
      (izipAll ((arrayEntries c).map Prod.snd)).length := by
    simp [zipped_response]
  constructor
  · intro kl hkl
    rw [hlen]
    exact h1 kl.2 (List.mem_map_of_mem Prod.snd hkl)
  · rcases h2 with ⟨l, hl, heq⟩
    rcases List.mem_map.mp hl with ⟨kl, hkl, rfl⟩
    exact ⟨kl, hkl, by rw [hlen]; exact heq⟩

theorem zipped_length_min_witness :
    (∀ kl ∈ arrayEntries [("L_A", CValue.plist [some "1", some "2"]),
        ("L_B", CValue.plist [some "3"])],
      (zipped_response [("L_A", CValue.plist [some "1", some "2"]),
        ("L_B", CValue.plist [some "3"])]).length ≤ kl.2.length) ∧
    (∃ kl ∈ arrayEntries [("L_A", CValue.plist [some "1", some "2"]),
        ("L_B", CValue.plist [some "3"])],
      (zipped_response [("L_A", CValue.plist [some "1", some "2"]),
        ("L_B", CValue.plist [some "3"])]).length = kl.2.length) :=
  zipped_length_min _ (by decide)

/-- C1 (amended): every key of every dictionary emitted by the record
zipper is an array field name passed through Python `lstrip('L_')`, which
removes ALL leading `L` and `_` characters; this coincides with dropping
exactly the `L_` prefix precisely when the remainder begins with neither
`L` nor `_`. -/
theorem zipped_keys_lstrip :
    (∀ (c : List (String × CValue)) (rec : List (String × Option String))
        (kv : String × Option String),
      rec ∈ zipped_response c → kv ∈ rec →
      ∃ k l, (k, CValue.plist l) ∈ c ∧ kv.1 = pyLstripLU k) ∧
    (∀ (c0 : Char) (cs : List Char), c0 ≠ 'L' → c0 ≠ '_' →
      pyLstripLU (String.mk ('L' :: '_' :: c0 :: cs)) =
        String.mk (c0 :: cs)) := by
  constructor
  · intro c rec kv hrec hkv
    simp only [zipped_response, List.mem_map] at hrec
    rcases hrec with ⟨row, hrow, hreq⟩
    subst hreq
    have hk1 := mem_odFromList_key _ kv hkv
    rcases List.mem_map.mp hk1 with ⟨p, hp, hpeq⟩
    have hpk : p.1 ∈ (arrayEntries c).map Prod.fst := (List.of_mem_zip hp).1
    rcases List.mem_map.mp hpk with ⟨kl, hkl, hkeq⟩
    rcases List.mem_filterMap.mp hkl with ⟨kv₀, hkv₀, hf⟩
    cases hv : kv₀.2 with
    | pstr s => rw [hv] at hf; simp at hf
    | plist l =>
      rw [hv] at hf
      simp only [Option.some.injEq] at hf
      refine ⟨kv₀.1, l, ?_, ?_⟩
      · have hpair : (kv₀.1, CValue.plist l) = kv₀ := by
          rw [← hv]
        rw [hpair]
        exact hkv₀
      · rw [← hpeq, ← hkeq, ← hf]
  · intro c0 cs h1 h2
    simp [pyLstripLU, List.dropWhile, h1, h2]

theorem zipped_keys_lstrip_witness :
    (∃ k l, (k, CValue.plist l) ∈
        [("L_TRANSACTIONID", CValue.plist [some "1"])] ∧
      ("TRANSACTIONID", some "1").1 = pyLstripLU k) ∧
    pyLstripLU (String.mk ('L' :: '_' :: 'T' :: [])) = String.mk ('T' :: []) :=
  ⟨zipped_keys_lstrip.1 [("L_TRANSACTIONID", CValue.plist [some "1"])]
      [("TRANSACTIONID", some "1")] ("TRANSACTIONID", some "1")
      (by decide) (by decide),
    zipped_keys_lstrip.2 'T' [] (by decide) (by decide)⟩

/-- C1 counterexample: the array field name `L_LONGMESSAGE` (flat key
`L_LONGMESSAGE0`) is emitted by the zipper under the key `ONGMESSAGE`, not
`LONGMESSAGE`: `lstrip('L_')` also strips the `L` that follows the `L_`
prefix. -/
theorem zipped_keys_lstrip_counterexample :
    collapseList (parse_nvp "L_LONGMESSAGE0=err") =
      .ok [("L_LONGMESSAGE", CValue.plist [some "err"])] ∧
    zipped_response [("L_LONGMESSAGE", CValue.plist [some "err"])] =
      [[("ONGMESSAGE", some "err")]] ∧
    (("ONGMESSAGE" : String) == "LONGMESSAGE") = false :=
  ⟨by decide, by decide, by decide⟩

theorem firstOccur_filter (x : String) (l : List String) :
    firstOccur (l.filter (fun y => y ≠ x)) =
      (firstOccur l).filter (fun y => y ≠ x) := by
  induction l with
  | nil => simp [firstOccur]
  | cons y l ih =>
    by_cases hyx : y = x
    · subst hyx
      rw [List.filter_cons_of_neg (by simp), firstOccur,
        List.filter_cons_of_neg (by simp), ih, List.filter_filter]
      apply List.filter_congr
      intro a _
      simp
    · rw [List.filter_cons_of_pos (by simp [hyx]), firstOccur, firstOccur, ih,
        List.filter_cons_of_pos (by simp [hyx]), List.filter_filter,
        List.filter_filter]
      congr 1
      apply List.filter_congr
      intro a _
      exact Bool.and_comm _ _

theorem foldl_odKeysIns (l : List String) :
    ∀ ks, l.foldl odKeysIns ks =
      ks ++ firstOccur (l.filter (fun x => x ∉ ks)) := by
  induction l with
  | nil => intro ks; simp [firstOccur]
  | cons x l ih =>
    intro ks
    rw [List.foldl_cons]
    by_cases hx : x ∈ ks
    · have h0 : odKeysIns ks x = ks := by simp [odKeysIns, hx]
      rw [h0, ih ks]
      congr 2
      simp [List.filter_cons, hx]
    · have h0 : odKeysIns ks x = ks ++ [x] := by simp [odKeysIns, hx]
      rw [h0, ih (ks ++ [x]), List.append_assoc]
      congr 1
      have h2 : (x :: l).filter (fun y => y ∉ ks) =
          x :: l.filter (fun y => y ∉ ks) := by
        simp [List.filter_cons, hx]
      rw [h2, firstOccur]
      show x :: firstOccur (l.filter (fun y => y ∉ ks ++ [x])) =
        x :: (firstOccur (l.filter (fun y => y ∉ ks))).filter (fun y => y ≠ x)
      congr 1
      rw [← firstOccur_filter]
      congr 1
      rw [List.filter_filter]
      apply List.filter_congr
      intro y _
      by_cases h3 : y = x <;> by_cases h4 : y ∈ ks <;> simp [h3, h4]

theorem collapse_fold_key_order (fr : List (String × String)) :
    ∀ (acc c : List (String × CValue)),
      List.foldlM collapseStep acc fr = .ok c →
      c.map Prod.fst =
        fr.foldl (fun ks kv => odKeysIns ks (collapsedKey kv.1))
          (acc.map Prod.fst) := by
  induction fr with
  | nil =>
    intro acc c hok
    simp [List.foldlM, pure, Except.pure] at hok
    subst hok
    rfl
  | cons x fr ih =>
    intro acc c hok
    rw [List.foldlM_cons] at hok
    cases hstep : collapseStep acc x with
    | error e => rw [hstep, exceptBind_error] at hok; cases hok
    | ok acc' =>
      rw [hstep, exceptBind_ok] at hok
      have hkeys : acc'.map Prod.fst =
          odKeysIns (acc.map Prod.fst) (collapsedKey x.1) := by
        rcases collapseStep_ok_cases acc acc' x hstep with ⟨hm, ha⟩ |
          ⟨bi, hm, _, l', ha⟩
        · subst ha
          rw [map_fst_odSet]
          simp [collapsedKey, hm]
        · subst ha
          rw [map_fst_odSet]
          simp [collapsedKey, hm]
      rw [List.foldl_cons, ih acc' c hok, hkeys]

/-- C5: the ordered-dictionary loop of `collapsed_response` produces its
keys in the order of each collapsed key's first occurrence in the flat
record — the ordered-mapping property the claim states, which the source
then discards by converting the `OrderedDict` to a plain (unordered,
Python 2) `dict` on the final line of the property. -/
theorem collapse_key_order (fr : List (String × String))
    (c : List (String × CValue)) (hok : collapseList fr = .ok c) :
    c.map Prod.fst = firstOccur (fr.map (fun kv => collapsedKey kv.1)) := by
  have h := collapse_fold_key_order fr [] c hok
  simp only [List.map_nil] at h
  have hfm : (fr.map (fun kv => collapsedKey kv.1)).foldl odKeysIns
      ([] : List String) =
      fr.foldl (fun ks kv => odKeysIns ks (collapsedKey kv.1)) [] :=
    List.foldl_map _ _ _ _
  rw [h, ← hfm, foldl_odKeysIns]
  simp only [List.nil_append]
  congr 1
  apply List.filter_eq_self.mpr
  intro a _
  simp

theorem collapse_key_order_witness :
    ([("CORRELATIONID", CValue.pstr "abc"),
      ("L_TRANSACTIONID", CValue.plist [some "1", some "2"]),
      ("L_TIMESTAMP", CValue.plist [some "3", some "4"])].map Prod.fst) =
      firstOccur ((parse_nvp
        "CORRELATIONID=abc&L_TRANSACTIONID0=1&L_TRANSACTIONID1=2&L_TIMESTAMP0=3&L_TIMESTAMP1=4").map
        (fun kv => collapsedKey kv.1)) :=
  collapse_key_order _ _ (by decide)

theorem getKey_error (r : List (String × String)) (k : String) (e : NVPInitErr)
    (h : getKey r k = .error e) : e = .keyError k := by
  unfold getKey at h
  cases hg : odGet? r k <;> rw [hg] at h
  · injection h with h
    exact h.symm
  · cases h

/-- C6: a parsed response missing a required top-level key makes the
construction of `PaypalNVPAPIResponse` raise the raw `KeyError` coming
from the accessor use in the base `__init__` (the success check and the
correlation-id and timestamp logging), before `validate` ever runs; the
uniform `PaypalAPIError` conversion inside `validate` is unreachable
during construction, so no response body makes construction fail with the
uniform error. -/
theorem initNVP_raw_keyError :
    initNVPResponse "FOO=bar" = .error (.keyError "ACK") ∧
    (∀ content, isPaypalAPIError (initNVPResponse content) = false) := by
  refine ⟨by decide, ?_⟩
  intro content
  simp only [initNVPResponse]
  cases h1 : getKey (parse_nvp content) "ACK" with
  | error e =>
    rw [exceptBind_error, getKey_error _ _ _ h1]
    rfl
  | ok v1 =>
    rw [exceptBind_ok]
    cases h2 : getKey (parse_nvp content) "CORRELATIONID" with
    | error e =>
      rw [exceptBind_error, getKey_error _ _ _ h2]
      rfl
    | ok v2 =>
      rw [exceptBind_ok]
      cases h3 : getKey (parse_nvp content) "TIMESTAMP" with
      | error e =>
        rw [exceptBind_error, getKey_error _ _ _ h3]
        rfl
      | ok v3 =>
        rw [exceptBind_ok]
        have hv : validateNVP (parse_nvp content) = .ok () := by
          unfold validateNVP
          by_cases hr : parse_nvp content = []
          · rw [if_pos hr]
          · rw [if_neg hr, h1, h2, h3]
        rw [hv, exceptBind_ok]
        rfl

theorem pySplit_ne_nil (sep : Char) (s : List Char) : pySplit sep s ≠ [] := by
  cases s with
  | nil => simp [pySplit]
  | cons c cs =>
    simp only [pySplit]
    cases h : pySplit sep cs with
    | nil => simp
    | cons g gs =>
      by_cases hc : c = sep <;> simp [hc]

theorem unquoteGroup_ne_nil (g : List Char) : unquoteGroup g ≠ [] := by
  match g with
  | [] => simp [unquoteGroup]
  | [c] => simp [unquoteGroup]
  | c1 :: c2 :: rest =>
    simp only [unquoteGroup]
    cases hexVal? c1 <;> cases hexVal? c2 <;> simp

theorem pyUnquote_ne_nil (s : List Char) (h : s ≠ []) : pyUnquote s ≠ [] := by
  cases s with
  | nil => exact absurd rfl h
  | cons c cs =>
    cases hps : pySplit '%' cs with
    | nil => exact absurd hps (pySplit_ne_nil '%' cs)
    | cons g gs =>
      by_cases hc : c = '%'
      · have hsplit : pySplit '%' (c :: cs) = [] :: g :: gs := by
          simp [pySplit, hps, hc]
        simp only [pyUnquote, hsplit, List.map_cons, List.flatten_cons,
          List.nil_append]
        intro habs
        rcases List.append_eq_nil.mp habs with ⟨h1, _⟩
        exact unquoteGroup_ne_nil g h1
      · have hsplit : pySplit '%' (c :: cs) = (c :: g) :: gs := by
          simp [pySplit, hps, hc]
        simp only [pyUnquote, hsplit, List.cons_append]
        simp

theorem parse_qsl_values_ne (qs : String) :
    ∀ kv ∈ parse_qsl qs, kv.2 ≠ "" := by
  intro kv hkv
  unfold parse_qsl at hkv
  rcases List.mem_filterMap.mp hkv with ⟨nv, _, hf⟩
  split at hf
  · cases hf
  next p hsp =>
    split at hf
    · cases hf
    next hv =>
      injection hf with hf
      rw [← hf]
      intro habs
      have hdata : pyUnquote (plusToSpace p.2) = [] := by
        have hd := congrArg String.data habs
        simpa using hd
      have hpts : plusToSpace p.2 ≠ [] := by
        intro hh
        exact hv (List.map_eq_nil_iff.mp hh)
      exact pyUnquote_ne_nil _ hpts hdata

/-- C10: a raw pair whose value is the empty string is dropped by
`parse_nvp`, so its key is absent from the flat record — `ACK=&FOO=x`
parses to just `FOO → x` and looking up `ACK` fails — and in general every
value stored in a parsed flat record is a nonempty string, so a
present-but-blank field is indistinguishable from a missing one. -/
theorem parse_nvp_drops_blank :
    parse_nvp "ACK=&FOO=x" = [("FOO", "x")] ∧
    odGet? (parse_nvp "ACK=&FOO=x") "ACK" = none ∧
    (∀ s : String, (parse_nvp s).all (fun kv => kv.2 != "") = true) := by
  refine ⟨by decide, by decide, ?_⟩
  intro s
  rw [List.all_eq_true]
  intro kv hkv
  simp only [parse_nvp] at hkv
  have h := odFromList_values (fun v => v ≠ "") (parse_qsl s)
    (parse_qsl_values_ne s) kv hkv
  exact bne_iff_ne.mpr h
